import Mathlib

set_option maxRecDepth 8000
set_option maxHeartbeats 1000000

attribute [local semireducible] Rat.add Rat.mul Rat.inv Rat.sub

/-!
Verification development for the FinCraftr fixed-income core
(`fc::interest` in the C++ sources): cash-flow schedule generation,
curve-based bond pricing, yield-to-maturity solving (Newton phase with a
bisection safeguard) and the DV01 risk measure.

The C++ code works on IEEE doubles; here it is embedded over `ℚ` with
exact arithmetic, which is the idealized real-number semantics the spec
describes.  `std::pow(base, -m*t)` is only ever called with `m*t` an
integer (schedule times are `k/m`), so the discount factor is embedded
with an integer (`zpow`) exponent `⌊m*t⌋`.  Undefined behaviour in the
C++ (calling `.back()` on an empty `std::vector`) is modelled by
`Option.none`; the `throw` in `yield_to_maturity` is a distinguished
`Outcome` constructor.
-/

/-- Outcome of a call to `yield_to_maturity`: a returned value, the
`DidNotConverge` exception (`std::runtime_error` in the source), or
undefined behaviour (empty-schedule `.back()`). -/
inductive Outcome where
  | value (y : ℚ)
  | didNotConverge
  | undef
deriving DecidableEq

/-- `std::round` followed by truncation to `int`: round half away from
zero, as C++ `std::round` does. -/
def cround (x : ℚ) : ℤ :=
  if 0 ≤ x then ⌊x + 1/2⌋ else -⌊-x + 1/2⌋

/-- `discount_factor(rate, m, t) = pow(1 + rate/m, -m*t)` from the source.
Every call site has `m*t` an exact integer (times are `k/m`), so the real
power is embedded as a `zpow` with exponent `⌊m*t⌋`. -/
def discount_factor (rate : ℚ) (m : ℤ) (t : ℚ) : ℚ :=
  (1 + rate / m) ^ (-⌊(m : ℚ) * t⌋)

/-- `flows.back().second += face` from `generate_cashflows`: add `face` to
the amount of the last entry; on an empty vector this is undefined
behaviour in C++, modelled as `none`. -/
def addToLast (face : ℚ) : List (ℚ × ℚ) → Option (List (ℚ × ℚ))
  | [] => none
  | [(t, cf)] => some [(t, cf + face)]
  | p :: q :: rest => (addToLast face (q :: rest)).map (fun l => p :: l)

/-- `generate_cashflows(face, coupon_rate, m, n_years)` from the source:
`n_payments = (int)round(n_years * m)` coupons of `coupon_rate*face/m` at
times `k * (1/m)` for `k = 1..n_payments`, with `face` added to the last
amount (undefined behaviour if there is no entry). -/
def generate_cashflows (face coupon_rate : ℚ) (m : ℤ) (n_years : ℚ) :
    Option (List (ℚ × ℚ)) :=
  addToLast face
    ((List.range (cround (n_years * (m : ℚ))).toNat).map
      (fun (k : ℕ) => (((k : ℚ) + 1) * (1 / (m : ℚ)),
        coupon_rate * face / (m : ℚ))))

/-- The flat-curve present value `pv_at` from `yield_to_maturity`: the sum
of `cf * discount_factor(y, m, t)` over the schedule. -/
def pvFlat (flows : List (ℚ × ℚ)) (m : ℤ) (y : ℚ) : ℚ :=
  (flows.map (fun p => p.2 * discount_factor y m p.1)).sum

/-- The analytic derivative accumulated in the Newton phase of
`yield_to_maturity`: the sum of `-m * t * cf * discount_factor(y,m,t) /
(1 + y/m)` over the schedule. -/
def dpvFlat (flows : List (ℚ × ℚ)) (m : ℤ) (y : ℚ) : ℚ :=
  (flows.map
    (fun p => -(m : ℚ) * p.1 * p.2 * discount_factor y m p.1 / (1 + y / m))).sum

/-- `price_fixed_rate_bond(face, coupon_rate, m, n_years, curve)` from the
source: discount each generated cash flow at its own curve rate and sum. -/
def price_fixed_rate_bond (face coupon_rate : ℚ) (m : ℤ) (n_years : ℚ)
    (curve : ℚ → ℚ) : Option ℚ :=
  (generate_cashflows face coupon_rate m n_years).map
    (fun flows =>
      (flows.map (fun p => p.2 * discount_factor (curve p.1) m p.1)).sum)

/-- Phase 1 of `yield_to_maturity` (the `for` loop doing Newton steps):
return the current iterate as soon as `|pv_at y - price| < tol`; otherwise
take a Newton step and continue only while the update stays in the open
interval `(0,1)`; `none` means "fall through to bisection" (guard tripped
or iterations exhausted). -/
def newton (flows : List (ℚ × ℚ)) (m : ℤ) (price tol : ℚ) :
    ℕ → ℚ → Option ℚ
  | 0, _ => none
  | Nat.succ fuel, y =>
    if |pvFlat flows m y - price| < tol then some y
    else
      if 0 < y - (pvFlat flows m y - price) / dpvFlat flows m y ∧
          y - (pvFlat flows m y - price) / dpvFlat flows m y < 1 then
        newton flows m price tol fuel
          (y - (pvFlat flows m y - price) / dpvFlat flows m y)
      else none

/-- Phase 2 of `yield_to_maturity` (bisection safeguard): narrow `[lo,hi]`
from the midpoint, returning the midpoint once `hi - lo < tol`; `none`
models falling off the loop and reaching the `throw`. -/
def bisect (f : ℚ → ℚ) (price tol : ℚ) : ℕ → ℚ → ℚ → Option ℚ
  | 0, _, _ => none
  | Nat.succ fuel, lo, hi =>
    if price < f ((lo + hi) / 2) then
      if hi - (lo + hi) / 2 < tol then some ((lo + hi) / 2)
      else bisect f price tol fuel ((lo + hi) / 2) hi
    else
      if (lo + hi) / 2 - lo < tol then some ((lo + hi) / 2)
      else bisect f price tol fuel lo ((lo + hi) / 2)

/-- Wrap the result of the bisection phase: a midpoint is returned as a
value, falling off the loop reaches `throw std::runtime_error(...)`. -/
def bisectOutcome (o : Option ℚ) : Outcome :=
  match o with
  | some y => Outcome.value y
  | none => Outcome.didNotConverge

/-- `yield_to_maturity(price, face, coupon_rate, m, n_years, tol,
max_iter, guess)` from the source: generate the schedule (undefined
behaviour propagates), run the Newton phase, and on hand-off run the
bisection safeguard over `[0,1]`. -/
def yield_to_maturity (price face coupon_rate : ℚ) (m : ℤ)
    (n_years tol : ℚ) (max_iter : ℕ) (guess : ℚ) : Outcome :=
  match generate_cashflows face coupon_rate m n_years with
  | none => Outcome.undef
  | some flows =>
    match newton flows m price tol max_iter guess with
    | some y => Outcome.value y
    | none => bisectOutcome (bisect (pvFlat flows m) price tol max_iter 0 1)

/-- `dv01(price, face, coupon_rate, m, n_years, ytm, bp)` from the source:
reprice at flat curves `ytm + bp` and `ytm - bp` and return half the
difference. -/
def dv01 (price face coupon_rate : ℚ) (m : ℤ) (n_years ytm bp : ℚ) :
    Option ℚ :=
  match price_fixed_rate_bond face coupon_rate m n_years (fun _ => ytm + bp),
      price_fixed_rate_bond face coupon_rate m n_years (fun _ => ytm - bp) with
  | some pv_up, some pv_down => some ((1/2) * (pv_down - pv_up))
  | _, _ => none

/-- Adding the principal to the last entry of `l ++ [p]` succeeds and
rewrites only the last amount. -/
theorem addToLast_append (face : ℚ) :
    ∀ (l : List (ℚ × ℚ)) (p : ℚ × ℚ),
      addToLast face (l ++ [p]) = some (l ++ [(p.1, p.2 + face)]) := by
  intro l
  induction l with
  | nil =>
    intro p
    obtain ⟨t, cf⟩ := p
    rfl
  | cons q l ih =>
    intro p
    cases l with
    | nil =>
      obtain ⟨t, cf⟩ := p
      rfl
    | cons q2 l2 =>
      have h : addToLast face ((q :: q2 :: l2) ++ [p]) =
          (addToLast face ((q2 :: l2) ++ [p])).map (fun l => q :: l) := rfl
      rw [h, ih p]
      rfl

/-- Closed form of `generate_cashflows` when the period count
`n = round(n_years * m)` is at least one: `n` entries, the `k`-th
(0-indexed) at time `(k+1)/m` with the per-period coupon, the last with
the principal added. -/
theorem generate_cashflows_eq (F c : ℚ) (m : ℤ) (T : ℚ)
    (hn : 1 ≤ (cround (T * (m : ℚ))).toNat) :
    generate_cashflows F c m T =
      some ((List.range (cround (T * (m : ℚ))).toNat).map
        (fun (k : ℕ) => (((k : ℚ) + 1) * (1 / (m : ℚ)),
          if k = (cround (T * (m : ℚ))).toNat - 1 then c * F / (m : ℚ) + F
          else c * F / (m : ℚ)))) := by
  obtain ⟨n0, hn0⟩ : ∃ n0, (cround (T * (m : ℚ))).toNat = n0 + 1 :=
    ⟨(cround (T * (m : ℚ))).toNat - 1, by omega⟩
  unfold generate_cashflows
  rw [hn0, List.range_succ, List.map_append, List.map_append,
    List.map_singleton, List.map_singleton, addToLast_append]
  congr 1
  congr 1
  · apply List.map_congr_left
    intro k hk
    rw [List.mem_range] at hk
    rw [if_neg (show ¬ k = n0 + 1 - 1 by omega)]
  · rw [if_pos (show n0 = n0 + 1 - 1 by omega)]

/-- Pricing with a constant curve is the flat present value of the
generated schedule. -/
theorem price_flat_eq (F c : ℚ) (m : ℤ) (T y : ℚ) (flows : List (ℚ × ℚ))
    (hfl : generate_cashflows F c m T = some flows) :
    price_fixed_rate_bond F c m T (fun _ => y) = some (pvFlat flows m y) := by
  unfold price_fixed_rate_bond pvFlat
  rw [hfl]
  rfl

/-- The Newton phase returns a value only when that value passes the
residual tolerance test. -/
theorem newton_sound (flows : List (ℚ × ℚ)) (m : ℤ) (price tol : ℚ) :
    ∀ (fuel : ℕ) (guess r : ℚ), newton flows m price tol fuel guess = some r →
      |pvFlat flows m r - price| < tol := by
  intro fuel
  induction fuel with
  | zero =>
    intro guess r h
    simp [newton] at h
  | succ n ih =>
    intro guess r h
    rw [newton] at h
    split_ifs at h with h1 h2
    · cases h
      exact h1
    · exact ih _ _ h

/-- The discount factor is strictly decreasing in the rate on `[0, ∞)`
when the period count `⌊m*t⌋` is positive. -/
theorem discount_factor_lt (m : ℤ) (hm : 1 ≤ m) {t : ℚ}
    (ht : 1 ≤ ⌊(m : ℚ) * t⌋) {a b : ℚ} (ha : 0 ≤ a) (hab : a < b) :
    discount_factor b m t < discount_factor a m t := by
  unfold discount_factor
  have hm0 : (0 : ℚ) < (m : ℚ) := by
    have : (0 : ℤ) < m := by omega
    exact_mod_cast this
  have hA : (0 : ℚ) < 1 + a / (m : ℚ) := by
    have := div_nonneg ha hm0.le
    linarith
  have hAB : 1 + a / (m : ℚ) < 1 + b / (m : ℚ) := by
    have := (div_lt_div_iff_of_pos_right hm0).2 hab
    linarith
  obtain ⟨k, hk⟩ : ∃ k : ℕ, ⌊(m : ℚ) * t⌋ = (k : ℤ) :=
    ⟨⌊(m : ℚ) * t⌋.toNat, (Int.toNat_of_nonneg (by omega)).symm⟩
  have hk0 : k ≠ 0 := by
    rw [hk] at ht
    exact_mod_cast Nat.one_le_iff_ne_zero.mp (by exact_mod_cast ht)
  rw [hk, zpow_neg, zpow_neg, zpow_natCast, zpow_natCast]
  exact inv_strictAnti₀ (pow_pos hA k) (pow_lt_pow_left₀ hAB hA.le hk0)

/-- Weak monotonicity of the flat present value: nonnegative amounts give
a nonincreasing present value in the yield on `[0, ∞)`. -/
theorem pvFlat_le (m : ℤ) (hm : 1 ≤ m) {a b : ℚ} (ha : 0 ≤ a) (hab : a < b) :
    ∀ flows : List (ℚ × ℚ),
      (∀ p ∈ flows, 0 ≤ p.2 ∧ 1 ≤ ⌊(m : ℚ) * p.1⌋) →
      pvFlat flows m b ≤ pvFlat flows m a := by
  intro flows
  induction flows with
  | nil =>
    intro _
    exact le_refl _
  | cons p l ih =>
    intro h
    have hp := h p (List.mem_cons_self p l)
    have hterm : p.2 * discount_factor b m p.1 ≤ p.2 * discount_factor a m p.1 :=
      mul_le_mul_of_nonneg_left (discount_factor_lt m hm hp.2 ha hab).le hp.1
    have hrest := ih (fun q hq => h q (List.mem_cons_of_mem p hq))
    simp only [pvFlat, List.map_cons, List.sum_cons] at hrest ⊢
    exact add_le_add hterm hrest

/-- Strict monotonicity of the flat present value: nonnegative amounts
with at least one positive amount give a strictly decreasing present
value in the yield on `[0, ∞)`. -/
theorem pvFlat_lt (m : ℤ) (hm : 1 ≤ m) {a b : ℚ} (ha : 0 ≤ a) (hab : a < b) :
    ∀ flows : List (ℚ × ℚ),
      (∀ p ∈ flows, 0 ≤ p.2 ∧ 1 ≤ ⌊(m : ℚ) * p.1⌋) →
      (∃ p ∈ flows, 0 < p.2) →
      pvFlat flows m b < pvFlat flows m a := by
  intro flows
  induction flows with
  | nil =>
    intro _ hex
    obtain ⟨p, hp, _⟩ := hex
    exact absurd hp (List.not_mem_nil p)
  | cons p l ih =>
    intro h hex
    have hp := h p (List.mem_cons_self p l)
    have hrest_le : pvFlat l m b ≤ pvFlat l m a :=
      pvFlat_le m hm ha hab l (fun q hq => h q (List.mem_cons_of_mem p hq))
    simp only [pvFlat, List.map_cons, List.sum_cons]
    obtain ⟨q, hq, hqpos⟩ := hex
    rcases List.mem_cons.mp hq with hqp | hql
    · have hterm : p.2 * discount_factor b m p.1 < p.2 * discount_factor a m p.1 := by
        apply mul_lt_mul_of_pos_left (discount_factor_lt m hm hp.2 ha hab)
        rw [← hqp]
        exact hqpos
      exact add_lt_add_of_lt_of_le hterm hrest_le
    · have hterm : p.2 * discount_factor b m p.1 ≤ p.2 * discount_factor a m p.1 :=
        mul_le_mul_of_nonneg_left (discount_factor_lt m hm hp.2 ha hab).le hp.1
      have hrest : pvFlat l m b < pvFlat l m a :=
        ih (fun r hr => h r (List.mem_cons_of_mem p hr)) ⟨q, hql, hqpos⟩
      exact add_lt_add_of_le_of_lt hterm hrest

/-- The flat present value is strictly antitone on `[0, ∞)` for a
schedule of nonnegative amounts, one positive, with positive period
counts. -/
theorem pvFlat_strictAntiOn (flows : List (ℚ × ℚ)) (m : ℤ) (hm : 1 ≤ m)
    (hall : ∀ p ∈ flows, 0 ≤ p.2 ∧ 1 ≤ ⌊(m : ℚ) * p.1⌋)
    (hex : ∃ p ∈ flows, 0 < p.2) :
    StrictAntiOn (pvFlat flows m) (Set.Ici 0) := by
  intro a ha b hb hab
  exact pvFlat_lt m hm (Set.mem_Ici.mp ha) hab flows hall hex

/-- If the target price is attained at a yield `y` strictly inside the
bracket of a strictly antitone price function, any value bisection
returns is within `tol` of `y`. -/
theorem bisect_sound (f : ℚ → ℚ) (hf : StrictAntiOn f (Set.Ici 0))
    (y tol : ℚ) (hy : 0 ≤ y) :
    ∀ (fuel : ℕ) (lo hi r : ℚ), 0 ≤ lo → lo < y → y ≤ hi →
      bisect f (f y) tol fuel lo hi = some r → |r - y| < tol := by
  intro fuel
  induction fuel with
  | zero =>
    intro lo hi r _ _ _ h
    simp [bisect] at h
  | succ n ih =>
    intro lo hi r hlo0 hloy hyhi h
    rw [bisect] at h
    have hmid0 : 0 ≤ (lo + hi) / 2 := by
      have : lo ≤ hi := le_of_lt (lt_of_lt_of_le hloy hyhi)
      linarith
    by_cases hc : f y < f ((lo + hi) / 2)
    · have hmlty : (lo + hi) / 2 < y := by
        by_contra hge
        push_neg at hge
        have := hf.antitoneOn (Set.mem_Ici.mpr hy) (Set.mem_Ici.mpr hmid0) hge
        exact absurd hc (not_lt.mpr this)
      rw [if_pos hc] at h
      by_cases hdone : hi - (lo + hi) / 2 < tol
      · rw [if_pos hdone] at h
        injection h with h
        subst h
        rw [abs_sub_lt_iff]
        constructor
        · linarith
        · linarith
      · rw [if_neg hdone] at h
        exact ih _ _ _ hmid0 hmlty hyhi h
    · have hylemid : y ≤ (lo + hi) / 2 := by
        by_contra hlt
        push_neg at hlt
        exact hc (hf (Set.mem_Ici.mpr hmid0) (Set.mem_Ici.mpr hy) hlt)
      rw [if_neg hc] at h
      by_cases hdone : (lo + hi) / 2 - lo < tol
      · rw [if_pos hdone] at h
        injection h with h
        subst h
        rw [abs_sub_lt_iff]
        constructor
        · linarith
        · linarith
      · rw [if_neg hdone] at h
        exact ih _ _ _ hlo0 hloy hylemid h

/-- Any value bisection returns lies inside the initial bracket. -/
theorem bisect_mem (f : ℚ → ℚ) (price tol : ℚ) :
    ∀ (fuel : ℕ) (lo hi r : ℚ), lo ≤ hi →
      bisect f price tol fuel lo hi = some r → lo ≤ r ∧ r ≤ hi := by
  intro fuel
  induction fuel with
  | zero =>
    intro lo hi r _ h
    simp [bisect] at h
  | succ n ih =>
    intro lo hi r hlohi h
    rw [bisect] at h
    have h1 : lo ≤ (lo + hi) / 2 := by linarith
    have h2 : (lo + hi) / 2 ≤ hi := by linarith
    split_ifs at h with hc hdone hdone
    · injection h with h
      subst h
      exact ⟨h1, h2⟩
    · have := ih _ _ _ h2 h
      exact ⟨le_trans h1 this.1, this.2⟩
    · injection h with h
      subst h
      exact ⟨h1, h2⟩
    · have := ih _ _ _ h1 h
      exact ⟨this.1, le_trans this.2 h2⟩

/-- Bisection cannot exhaust its fuel once the bracket is narrower than
`tol * 2^fuel`: halving reaches the tolerance first. -/
theorem bisect_total (f : ℚ → ℚ) (price tol : ℚ) :
    ∀ (fuel : ℕ) (lo hi : ℚ), 0 < fuel → hi - lo < tol * 2 ^ fuel →
      ∃ r, bisect f price tol fuel lo hi = some r := by
  intro fuel
  induction fuel with
  | zero =>
    intro lo hi h
    exact absurd h (lt_irrefl 0)
  | succ n ih =>
    intro lo hi _ hw
    have hps : (2 : ℚ) ^ (n + 1) = 2 ^ n * 2 := pow_succ 2 n
    have hw1 : hi - (lo + hi) / 2 < tol * 2 ^ n := by
      rw [hps] at hw
      linarith
    have hw2 : (lo + hi) / 2 - lo < tol * 2 ^ n := by
      rw [hps] at hw
      linarith
    rw [bisect]
    by_cases hc : price < f ((lo + hi) / 2)
    · rw [if_pos hc]
      by_cases hdone : hi - (lo + hi) / 2 < tol
      · rw [if_pos hdone]
        exact ⟨_, rfl⟩
      · rw [if_neg hdone]
        cases n with
        | zero =>
          rw [pow_zero, mul_one] at hw1
          exact absurd hw1 hdone
        | succ k =>
          exact ih _ _ (Nat.succ_pos k) hw1
    · rw [if_neg hc]
      by_cases hdone : (lo + hi) / 2 - lo < tol
      · rw [if_pos hdone]
        exact ⟨_, rfl⟩
      · rw [if_neg hdone]
        cases n with
        | zero =>
          rw [pow_zero, mul_one] at hw2
          exact absurd hw2 hdone
        | succ k =>
          exact ih _ _ (Nat.succ_pos k) hw2

/-- For a valid instrument (positive face, nonnegative coupon rate,
positive integer frequency, at least one period) the generated schedule
has nonnegative amounts and positive period counts, with the final
amount positive. -/
theorem generate_cashflows_facts (F c : ℚ) (m : ℤ) (T : ℚ)
    (flows : List (ℚ × ℚ)) (hF : 0 < F) (hc : 0 ≤ c) (hm : 1 ≤ m)
    (hn : 1 ≤ (cround (T * (m : ℚ))).toNat)
    (hfl : generate_cashflows F c m T = some flows) :
    (∀ p ∈ flows, 0 ≤ p.2 ∧ 1 ≤ ⌊(m : ℚ) * p.1⌋) ∧ ∃ p ∈ flows, 0 < p.2 := by
  have hm0 : (0 : ℚ) < (m : ℚ) := by
    have : (0 : ℤ) < m := by omega
    exact_mod_cast this
  have hcoupon : 0 ≤ c * F / (m : ℚ) :=
    div_nonneg (mul_nonneg hc hF.le) hm0.le
  rw [generate_cashflows_eq F c m T hn] at hfl
  injection hfl with hfl
  constructor
  · intro p hp
    rw [← hfl] at hp
    rw [List.mem_map] at hp
    obtain ⟨k, hk, rfl⟩ := hp
    constructor
    · dsimp only
      split_ifs
      · linarith
      · exact hcoupon
    · dsimp only
      have hmt : (m : ℚ) * (((k : ℚ) + 1) * (1 / (m : ℚ))) = (k : ℚ) + 1 := by
        field_simp
      rw [hmt]
      have hcast : ((k : ℚ) + 1) = ((k + 1 : ℕ) : ℚ) := by
        push_cast
        ring
      rw [hcast, Int.floor_natCast]
      exact_mod_cast Nat.succ_le_succ (Nat.zero_le k)
  · rw [← hfl]
    refine ⟨(((((cround (T * (m : ℚ))).toNat - 1 : ℕ) : ℚ) + 1) * (1 / (m : ℚ)),
      c * F / (m : ℚ) + F), ?_, ?_⟩
    · rw [List.mem_map]
      refine ⟨(cround (T * (m : ℚ))).toNat - 1, List.mem_range.mpr (by omega), ?_⟩
      rw [if_pos rfl]
    · dsimp only
      linarith

/-- With a successfully generated schedule, `yield_to_maturity` is the
Newton phase followed, on hand-off, by the bisection phase. -/
theorem yield_to_maturity_phases (price F c : ℚ) (m : ℤ) (T tol : ℚ)
    (it : ℕ) (guess : ℚ) (flows : List (ℚ × ℚ))
    (hfl : generate_cashflows F c m T = some flows) :
    yield_to_maturity price F c m T tol it guess =
      match newton flows m price tol it guess with
      | some y => Outcome.value y
      | none => bisectOutcome (bisect (pvFlat flows m) price tol it 0 1) := by
  unfold yield_to_maturity
  rw [hfl]

/-- C1 (amended): for every valid instrument (positive face, nonnegative
coupon rate, positive integer frequency, at least one period) and every
flat rate `y` in `(0,1)`, calling `yield_to_maturity` (default tolerance
`1e-10`, `max_iter = 100`, guess `0.03`) with market price equal to
`price_fixed_rate_bond` at the constant curve `t ↦ y` returns a yield `r`
that either reproduces the market price within tolerance (the Newton
success criterion) or is within tolerance of `y` (the bisection
guarantee).  The original claim — `r` always within tolerance of `y` —
fails when Newton's price-residual test succeeds at a yield far from `y`
(see the counterexample). -/
theorem ytm_roundtrip_amended (F c : ℚ) (m : ℤ) (T y P : ℚ)
    (flows : List (ℚ × ℚ))
    (hF : 0 < F) (hc : 0 ≤ c) (hm : 1 ≤ m)
    (hn : 1 ≤ (cround (T * (m : ℚ))).toNat)
    (hy0 : 0 < y) (hy1 : y < 1)
    (hfl : generate_cashflows F c m T = some flows)
    (hP : price_fixed_rate_bond F c m T (fun _ => y) = some P) :
    ∃ r, yield_to_maturity P F c m T (1/10^10) 100 (3/100) = Outcome.value r ∧
      (|pvFlat flows m r - P| < 1/10^10 ∨ |r - y| < 1/10^10) := by
  have hPy : P = pvFlat flows m y := by
    have h := price_flat_eq F c m T y flows hfl
    rw [hP] at h
    exact Option.some_inj.mp h
  obtain ⟨hall, hex⟩ :=
    generate_cashflows_facts F c m T flows hF hc hm hn hfl
  have hanti : StrictAntiOn (pvFlat flows m) (Set.Ici 0) :=
    pvFlat_strictAntiOn flows m hm hall hex
  rw [yield_to_maturity_phases P F c m T (1/10^10) 100 (3/100) flows hfl]
  cases hN : newton flows m P (1/10^10) 100 (3/100) with
  | some r =>
    exact ⟨r, rfl, Or.inl (newton_sound flows m P (1/10^10) 100 (3/100) r hN)⟩
  | none =>
    obtain ⟨mid, hmid⟩ := bisect_total (pvFlat flows m) P (1/10^10) 100 0 1
      (by norm_num) (by norm_num)
    rw [hmid]
    refine ⟨mid, rfl, Or.inr ?_⟩
    rw [hPy] at hmid
    exact bisect_sound (pvFlat flows m) hanti y (1/10^10) hy0.le 100 0 1 mid
      le_rfl hy0 hy1.le hmid

/-- C1 counterexample: the round-trip claim as stated is false.  The
instrument face `1e-12`, coupon rate `0`, frequency `1`, tenor `1` is
valid and `y = 1/2` lies in `(0,1)`; the flat price at `y` is
`2/(3*10^12) = 1/1500000000000`, yet the solver returns the initial guess
`0.03` (the tiny face makes the price function nearly flat, so the Newton
residual test fires immediately), which is not within the `1e-10`
tolerance of `1/2`. -/
theorem ytm_roundtrip_counterexample :
    (0 : ℚ) < 1/10^12 ∧ (0 : ℚ) < 1/2 ∧ (1/2 : ℚ) < 1 ∧
    price_fixed_rate_bond (1/10^12) 0 1 1 (fun _ => 1/2) =
      some (1/1500000000000) ∧
    yield_to_maturity (1/1500000000000) (1/10^12) 0 1 1 (1/10^10) 100
      (3/100) = Outcome.value (3/100) ∧
    ¬ |(3/100 : ℚ) - 1/2| < 1/10^10 := by
  refine ⟨by norm_num, by norm_num, by norm_num, ?_, ?_, ?_⟩
  · decide
  · decide
  · decide

/-- C1 witness: the amended round-trip theorem applied to the concrete
instrument face `100`, coupon rate `0`, frequency `1`, tenor `1` and flat
rate `y = 1/2` (market price `200/3`). -/
theorem ytm_roundtrip_amended_witness :
    ∃ r, yield_to_maturity (200/3) 100 0 1 1 (1/10^10) 100 (3/100) =
        Outcome.value r ∧
      (|pvFlat [(1, 100)] 1 r - 200/3| < 1/10^10 ∨
        |r - 1/2| < 1/10^10) :=
  ytm_roundtrip_amended 100 0 1 1 (1/2) (200/3) [(1, 100)]
    (by norm_num) (by norm_num) (by norm_num) (by decide)
    (by norm_num) (by norm_num) (by decide) (by decide)

/-- C2: when the market price is unattainable by any flat yield in
`[0,1]` (here `2000`, while the maximal attainable price is `100`), the
solver does not raise `DidNotConverge`: bisection silently converges to a
boundary yield and `yield_to_maturity` returns it, even though its
implied price misses the market price by far more than the tolerance. -/
theorem ytm_silent_boundary :
    ∃ r, yield_to_maturity 2000 100 0 1 1 (1/10^10) 100 (3/100) =
        Outcome.value r ∧
      ¬ |pvFlat [(1, 100)] 1 r - 2000| < 1/10^10 := by
  have hfl : generate_cashflows 100 0 1 1 = some [(1, 100)] := by decide
  have hN : newton [(1, 100)] 1 2000 (1/10^10) 100 (3/100) = none := by decide
  rw [yield_to_maturity_phases 2000 100 0 1 1 (1/10^10) 100 (3/100)
    [(1, 100)] hfl, hN]
  obtain ⟨mid, hmid⟩ := bisect_total (pvFlat [(1, 100)] 1) 2000 (1/10^10)
    100 0 1 (by norm_num) (by norm_num)
  rw [hmid]
  refine ⟨mid, rfl, ?_⟩
  have hmem := bisect_mem (pvFlat [(1, 100)] 1) 2000 (1/10^10) 100 0 1 mid
    (by norm_num) hmid
  have hanti : StrictAntiOn (pvFlat [(1, 100)] 1) (Set.Ici 0) := by
    apply pvFlat_strictAntiOn [(1, 100)] 1 le_rfl
    · intro p hp
      rw [List.mem_singleton] at hp
      subst hp
      exact ⟨by norm_num, by decide⟩
    · exact ⟨(1, 100), List.mem_singleton.mpr rfl, by norm_num⟩
  have hle : pvFlat [(1, 100)] 1 mid ≤ pvFlat [(1, 100)] 1 0 :=
    hanti.antitoneOn (Set.mem_Ici.mpr le_rfl) (Set.mem_Ici.mpr hmem.1) hmem.1
  have hpv0 : pvFlat [(1, 100)] 1 0 = 100 := by decide
  rw [hpv0] at hle
  intro habs
  rw [abs_lt] at habs
  have h1 := habs.1
  norm_num at h1
  linarith

/-- C3: for every face, coupon rate, positive integer frequency and tenor
with `n = round(tenor * m) >= 1` periods, the schedule has exactly `n`
entries, the `k`-th (0-indexed) at time `(k+1)/m` with amount
`coupon_rate * face / m`, the final one with `face` added. -/
theorem generate_cashflows_schedule (F c : ℚ) (m : ℤ) (T : ℚ)
    (hm : 1 ≤ m) (hn : 1 ≤ (cround (T * (m : ℚ))).toNat) :
    generate_cashflows F c m T =
      some ((List.range (cround (T * (m : ℚ))).toNat).map
        (fun (k : ℕ) => (((k : ℚ) + 1) / (m : ℚ),
          if k = (cround (T * (m : ℚ))).toNat - 1 then c * F / (m : ℚ) + F
          else c * F / (m : ℚ)))) := by
  rw [generate_cashflows_eq F c m T hn]
  congr 1
  apply List.map_congr_left
  intro k hk
  rw [mul_one_div]

/-- C3 witness: the concrete schedule from the claim (face 1000, coupon
rate 5%, semiannual, two years): four entries at times 0.5, 1, 1.5, 2
with amounts 25, 25, 25, 1025. -/
theorem generate_cashflows_schedule_witness :
    generate_cashflows 1000 (1/20) 2 2 =
      some [(1/2, 25), (1, 25), (3/2, 25), (2, 1025)] := by
  have h := generate_cashflows_schedule 1000 (1/20) 2 2 (by norm_num)
    (by decide)
  rw [h]
  decide

/-- C4: with a successfully generated schedule, the price is exactly the
finite sum over the schedule of `amount * (1 + curve(t)/m)^(-m*t)`, the
curve evaluated once per cash flow, with no early termination. -/
theorem price_is_discounted_sum (F c : ℚ) (m : ℤ) (T : ℚ)
    (curve : ℚ → ℚ) (flows : List (ℚ × ℚ))
    (hfl : generate_cashflows F c m T = some flows) :
    price_fixed_rate_bond F c m T curve =
      some ((flows.map
        (fun p => p.2 * (1 + curve p.1 / (m : ℚ)) ^ (-⌊(m : ℚ) * p.1⌋))).sum) := by
  unfold price_fixed_rate_bond
  rw [hfl]
  rfl

/-- C4 witness: the discounted-sum form of the price at the concrete
schedule of the claim under a flat 5% curve. -/
theorem price_is_discounted_sum_witness :
    price_fixed_rate_bond 1000 (1/20) 2 2 (fun _ => 1/20) =
      some ((([(1/2, 25), (1, 25), (3/2, 25), (2, 1025)] : List (ℚ × ℚ)).map
        (fun p => p.2 * (1 + (1/20 : ℚ) / 2) ^ (-⌊(2 : ℚ) * p.1⌋))).sum) :=
  price_is_discounted_sum 1000 (1/20) 2 2 (fun _ => 1/20)
    [(1/2, 25), (1, 25), (3/2, 25), (2, 1025)] (by decide)

/-- C5: the Newton phase returns a value only when it passes the residual
tolerance test (its sole success exit), and whenever it hands off
(guard tripped or iterations exhausted, i.e. result `none`) the solver
continues with the bisection phase, never returning an unconverged
Newton iterate. -/
theorem newton_phase_discipline (flows : List (ℚ × ℚ)) (m : ℤ)
    (price F c T tol : ℚ) (it : ℕ) (guess : ℚ) :
    (∀ r, newton flows m price tol it guess = some r →
      |pvFlat flows m r - price| < tol) ∧
    (generate_cashflows F c m T = some flows →
      newton flows m price tol it guess = none →
      yield_to_maturity price F c m T tol it guess =
        bisectOutcome (bisect (pvFlat flows m) price tol it 0 1)) := by
  constructor
  · intro r h
    exact newton_sound flows m price tol it guess r h
  · intro hfl hN
    rw [yield_to_maturity_phases price F c m T tol it guess flows hfl, hN]

/-- C5 witness: a Newton success (guess 2 with its exact price, residual
0 within tolerance) and a hand-off (market price 2000 makes the first
Newton update leave `(0,1)`, so the solver runs bisection). -/
theorem newton_phase_discipline_witness :
    |pvFlat [(1, 100)] 1 2 - 100/3| < 1/10^10 ∧
    yield_to_maturity 2000 100 0 1 1 (1/10^10) 100 (3/100) =
      bisectOutcome (bisect (pvFlat [(1, 100)] 1) 2000 (1/10^10) 100 0 1) :=
  ⟨(newton_phase_discipline [(1, 100)] 1 (100/3) 100 0 1 (1/10^10) 100 2).1
      2 (by decide),
    (newton_phase_discipline [(1, 100)] 1 2000 100 0 1 (1/10^10) 100
      (3/100)).2 (by decide) (by decide)⟩

/-- C6: for every nonempty schedule with all-positive amounts (and
positive per-flow period counts `⌊m*t⌋`, as every generated schedule
has), the flat present value is strictly decreasing in the yield on
`[0, ∞)`. -/
theorem price_strictly_decreasing (flows : List (ℚ × ℚ)) (m : ℤ)
    (hm : 1 ≤ m) (hne : flows ≠ [])
    (hpos : ∀ p ∈ flows, 0 < p.2)
    (hper : ∀ p ∈ flows, 1 ≤ ⌊(m : ℚ) * p.1⌋) :
    StrictAntiOn (pvFlat flows m) (Set.Ici 0) := by
  apply pvFlat_strictAntiOn flows m hm
    (fun p hp => ⟨(hpos p hp).le, hper p hp⟩)
  obtain ⟨p, hp⟩ := List.exists_mem_of_ne_nil flows hne
  exact ⟨p, hp, hpos p hp⟩

/-- C6 witness: strict decrease between yields 0 and 1 for the one-flow
schedule of a zero-coupon bond. -/
theorem price_strictly_decreasing_witness :
    pvFlat [(1, 100)] 1 1 < pvFlat [(1, 100)] 1 0 :=
  price_strictly_decreasing [(1, 100)] 1 le_rfl (by decide)
    (by
      intro p hp
      rw [List.mem_singleton] at hp
      subst hp
      norm_num)
    (by
      intro p hp
      rw [List.mem_singleton] at hp
      subst hp
      decide)
    (Set.mem_Ici.mpr le_rfl) (Set.mem_Ici.mpr zero_le_one) zero_lt_one

/-- C7: at frequency 4 and tenor 0 the period count is zero, and
`generate_cashflows` hits `flows.back()` on an empty vector — undefined
behaviour (modelled `none`), not an `InvalidSchedule` error as the spec
requires (no such error exists in the code). -/
theorem degenerate_schedule_ub :
    generate_cashflows 1000 (1/20) 4 0 = none := by decide

/-- C8: no input validation exists.  With the non-positive face `-100`
the scheduler happily produces a (negative-amount) schedule and the
pricer prices it, with no `InvalidInput` error anywhere (no such error
exists in the code). -/
theorem no_input_validation :
    generate_cashflows (-100) (1/20) 2 1 = some [(1/2, -5/2), (1, -205/2)] ∧
    price_fixed_rate_bond (-100) (1/20) 2 1 (fun _ => 0) = some (-105) := by
  constructor
  · decide
  · decide

/-- C9: `dv01` never reads its first argument (the market price): the
result is identical for any two values of `price` with all remaining
arguments fixed. -/
theorem dv01_ignores_price (p1 p2 F c : ℚ) (m : ℤ) (T ytm bp : ℚ) :
    dv01 p1 F c m T ytm bp = dv01 p2 F c m T ytm bp := rfl

/-- C10: the `(0,1)` range guard is applied only after a Newton update,
so an initial guess that already satisfies the residual tolerance is
returned unchanged — even when it lies outside `(0,1)`. -/
theorem ytm_returns_tolerable_guess (price F c : ℚ) (m : ℤ) (T : ℚ)
    (flows : List (ℚ × ℚ)) (tol : ℚ) (it : ℕ) (guess : ℚ)
    (hfl : generate_cashflows F c m T = some flows)
    (hit : 0 < it)
    (hguess : |pvFlat flows m guess - price| < tol) :
    yield_to_maturity price F c m T tol it guess = Outcome.value guess := by
  cases it with
  | zero => exact absurd hit (lt_irrefl 0)
  | succ n =>
    have hN : newton flows m price tol (Nat.succ n) guess = some guess := by
      rw [newton, if_pos hguess]
    rw [yield_to_maturity_phases price F c m T tol (Nat.succ n) guess
      flows hfl, hN]

/-- C10 witness: the guess `2.0`, far outside `(0,1)`, is returned
unchanged because its implied price equals the market price `100/3`. -/
theorem ytm_returns_tolerable_guess_witness :
    yield_to_maturity (100/3) 100 0 1 1 (1/10^10) 100 2 = Outcome.value 2 :=
  ytm_returns_tolerable_guess (100/3) 100 0 1 1 [(1, 100)] (1/10^10) 100 2
    (by decide) (by norm_num) (by decide)
